import Mathlib

/-!
Shallow embedding of mypaint's document.py: the Stroke lifecycle contract and
the Layer incremental rerendering / snapshot-caching engine.

Modelling conventions, all taken from the source:

* Stroke-history comparison in the source is Python object identity on list
  elements (Stroke has no custom equality).  At the Layer level a stroke is
  therefore represented by its identity, a natural number.

* The mutable Python list objects held by `layer.rendered.strokes` and by the
  `strokes` field of each cache entry are modelled by an explicit heap (a list
  of stroke-id lists) together with references (heap indices).  An in-place
  `append` is a heap write at the referenced cell; the `[:]` copies taken in
  `populate_cache` and `render_cached` are fresh allocations at the end of the
  heap.  `layer.strokes` itself is only read inside `rerender`, so it is kept
  as a plain value.

* The pixel surface is abstracted to the data that determines it: the loaded
  background and the ordered list of stroke identities replayed onto it.
  `save_snapshot` returns this value, `load_snapshot` restores it.

* Python `assert` failures and the `len(None)` type error that would follow a
  non-prefix replay are modelled by returning `none`.
-/

/-- The sentinel cost from document.py line 25: `infinity = 99999999`. -/
def infinity : Nat := 99999999

/-- Stroke (document.py lines 27–99).  The captured immutable attributes
(configuration string, state blob, seed, event blob) are abstracted to
natural-number tokens; `serial` is the identity assigned from the class-wide
counter at construction. -/
structure Stroke where
  serial : Nat
  finished : Bool
  rendered : Bool
  brush_settings : Nat
  brush_state : Nat
  seed : Nat
  stroke_data : Nat
deriving DecidableEq, Repr

/-- Stroke.render (lines 68–84): asserts `finished`, replays the captured blob
onto the surface (the surface effect is modelled at the Layer level, where a
stroke is its identity), and sets the diagnostic `rendered` flag. -/
def Stroke.render (s : Stroke) : Option Stroke :=
  if s.finished then some { s with rendered := true } else none

/-- Stroke.copy (lines 86–91): asserts `finished`; `s = Stroke()` draws a
fresh serial from the class counter, but `s.__dict__.update(self.__dict__)`
then overwrites every instance attribute of the fresh object — including
`serial_number` — with the original's, after which `s.rendered = False`.
The net result is a stroke equal to the original except for the cleared
rendered flag, while the class counter has still been advanced. -/
def Stroke.copy (s : Stroke) (counter : Nat) : Option (Stroke × Nat) :=
  if s.finished then
    let fresh : Stroke :=
      { serial := counter + 1, finished := false, rendered := false,
        brush_settings := 0, brush_state := 0, seed := 0, stroke_data := 0 }
    let updated : Stroke :=
      { fresh with
        serial := s.serial, finished := s.finished, rendered := s.rendered,
        brush_settings := s.brush_settings, brush_state := s.brush_state,
        seed := s.seed, stroke_data := s.stroke_data }
    some ({ updated with rendered := false }, counter + 1)
  else none

/-- Stroke.change_brush_settings (lines 93–99): asserts `finished` and
`not rendered`, then overwrites the stored brush configuration. -/
def Stroke.change_brush_settings (s : Stroke) (bs : Nat) : Option Stroke :=
  if s.finished ∧ s.rendered = false then
    some { s with brush_settings := bs }
  else none

/-- The pixel surface, abstracted to the data that determines its pixels:
the loaded background and the stroke identities replayed onto it in order. -/
structure Surface where
  background : Option Nat
  strokes : List Nat
deriving DecidableEq, Repr

/-- The heap of mutable Python list objects (stroke-id lists). -/
abbrev Heap := List (List Nat)

/-- Dereference a heap cell. -/
def readRef (h : Heap) (r : Nat) : List Nat := h.getD r []

/-- Overwrite a heap cell (in-place mutation of the referenced list object). -/
def writeRef (h : Heap) (r : Nat) (v : List Nat) : Heap := h.set r v

/-- The `rendered` marker Struct (lines 124–126): which stroke list object and
background the live surface currently reflects.  `strokes` is a heap
reference. -/
structure RenderedPt where
  strokes : Nat
  background : Option Nat
deriving DecidableEq, Repr

/-- A cache entry Struct (lines 153–156): stroke list object (heap reference),
background, and an immutable surface snapshot. -/
structure Cache where
  strokes : Nat
  background : Option Nat
  snapshot : Surface
deriving DecidableEq, Repr

/-- Layer (lines 114–129). -/
structure Layer where
  heap : Heap
  surface : Surface
  strokes : List Nat
  background : Option Nat
  rendered : RenderedPt
  caches : List Cache
  strokes_to_cache : Nat
deriving DecidableEq, Repr

/-- strokes_from_to (lines 104–111), on the list/background values of the two
reference points: `None` when the backgrounds differ; otherwise the missing
suffix when `a.strokes` is a prefix (element identity) of `b.strokes`, and
`None` when it is not.  `a.strokes == b.strokes[:n]` with `n = len(a.strokes)`
is exactly the `take`-equality below. -/
def strokes_from_to (aStrokes : List Nat) (aBg : Option Nat)
    (bStrokes : List Nat) (bBg : Option Nat) : Option (List Nat) :=
  if aBg ≠ bBg then none
  else if aStrokes = bStrokes.take aStrokes.length then
    some (bStrokes.drop aStrokes.length)
  else none

/-- count_strokes_from (lines 165–169): the closure inside `rerender`, taking
a reference point and counting the strokes needed to reach the layer's
current desired state, with the `infinity` sentinel for impossible starts. -/
def count_strokes_from (L : Layer) (rStrokes : List Nat) (rBg : Option Nat) : Nat :=
  match strokes_from_to rStrokes rBg L.strokes L.background with
  | none => infinity
  | some strokes => strokes.length

/-- The cost of continuing from what is currently rendered (line 198). -/
def rendered_cost (L : Layer) : Nat :=
  count_strokes_from L (readRef L.heap L.rendered.strokes) L.rendered.background

/-- populate_cache (lines 131–158).  Early return when too few strokes are
rendered or when an existing cache is within `strokes_to_cache` strokes of the
current rendered point; otherwise pop from the front while more than
`max_caches - 1 = 2` entries remain, then append a new entry holding a copy
(fresh heap cell) of the rendered stroke list, the rendered background and a
surface snapshot. -/
def populate_cache (L : Layer) : Layer :=
  if (readRef L.heap L.rendered.strokes).length < L.strokes_to_cache then L
  else if L.caches.any (fun c =>
      match strokes_from_to (readRef L.heap c.strokes) c.background
          (readRef L.heap L.rendered.strokes) L.rendered.background with
      | none => false
      | some new_strokes => new_strokes.length < L.strokes_to_cache) then L
  else
    { L with
      heap := L.heap ++ [readRef L.heap L.rendered.strokes],
      caches := L.caches.drop (L.caches.length - 2)
        ++ [{ strokes := L.heap.length, background := L.rendered.background,
              snapshot := L.surface }] }

/-- The caching flag of render_new_strokes: either `True` (populate after
every stroke) or a marker stroke before which population is suspended. -/
inductive Caching where
  | on : Caching
  | waiting (marker : Nat) : Caching
deriving DecidableEq, Repr

/-- One iteration of the replay loop body before the caching check (lines
182–184): render the stroke onto the surface and append it in place to the
rendered stroke list object. -/
def renderStep (L : Layer) (s : Nat) : Layer :=
  { L with
    surface := { L.surface with strokes := L.surface.strokes ++ [s] },
    heap := writeRef L.heap L.rendered.strokes
      (readRef L.heap L.rendered.strokes ++ [s]) }

/-- The replay loop of render_new_strokes (lines 182–188): after rendering and
appending each stroke, the caching flag switches on when the marker stroke is
reached (`caching is new_stroke`), and while on, `populate_cache` runs after
every stroke. -/
def renderLoop : List Nat → Caching → Layer → Layer
  | [], _, L => L
  | s :: rest, Caching.on, L =>
      renderLoop rest Caching.on (populate_cache (renderStep L s))
  | s :: rest, Caching.waiting m, L =>
      if m = s then renderLoop rest Caching.on (populate_cache (renderStep L s))
      else renderLoop rest (Caching.waiting m) (renderStep L s)

/-- The initial caching flag of render_new_strokes (lines 177–180):
`caching = True` unless the replay is longer than `2*strokes_to_cache`, in
which case the flag is the marker stroke `new_strokes[-2*strokes_to_cache]`.
By Python negative indexing this is index `len - 2*w` for `w > 0` and index
`0` for `w = 0`. -/
def initial_caching (w : Nat) (new_strokes : List Nat) : Caching :=
  if 2 * w < new_strokes.length then
    Caching.waiting (if w = 0 then new_strokes.getD 0 0
      else new_strokes.getD (new_strokes.length - 2 * w) 0)
  else Caching.on

/-- The closing correctness check of render_new_strokes (line 190):
`assert self.rendered.strokes == self.strokes`; an assertion failure is
modelled as `none`. -/
def finish_check (L2 : Layer) : Option Layer :=
  if readRef L2.heap L2.rendered.strokes = L2.strokes then some L2 else none

/-- render_new_strokes (lines 171–193).  `none` models the `len(None)` type
error when the rendered point is not a valid start, and the final assertion
via `finish_check`. -/
def render_new_strokes (L : Layer) : Option Layer :=
  match strokes_from_to (readRef L.heap L.rendered.strokes) L.rendered.background
      L.strokes L.background with
  | none => none
  | some new_strokes =>
    finish_check
      (renderLoop new_strokes (initial_caching L.strokes_to_cache new_strokes) L)

/-- render_cached (lines 212–220): move the chosen entry to the
most-recently-used end, restore the surface from its snapshot, point
`rendered` at a fresh copy of the entry's stroke list and at its background,
then replay the missing suffix. -/
def render_cached (i : Nat) (L : Layer) : Option Layer :=
  match L.caches[i]? with
  | none => none
  | some c =>
    render_new_strokes
      { L with
        caches := L.caches.eraseIdx i ++ [c],
        surface := c.snapshot,
        heap := L.heap ++ [readRef L.heap c.strokes],
        rendered := { strokes := L.heap.length, background := c.background } }

/-- render_from_empty (lines 224–232): load the background (or clear), reset
`rendered` to a fresh empty stroke list and the current background, then
replay everything. -/
def render_from_empty (L : Layer) : Option Layer :=
  let surf : Surface :=
    match L.background with
    | some bg => { background := some bg, strokes := [] }
    | none => { background := none, strokes := [] }
  render_new_strokes
    { L with
      surface := surf,
      heap := L.heap ++ [[]],
      rendered := { strokes := L.heap.length, background := L.background } }

/-- The candidate strategies, as a tagged variant in place of the source's
closures: continue from rendered, restore cache entry `i`, full rebuild. -/
inductive Strat where
  | cont : Strat
  | cached (i : Nat) : Strat
  | fromEmpty : Strat
deriving DecidableEq, Repr

/-- Execute the chosen strategy's closure. -/
def exec_strategy (L : Layer) : Strat → Option Layer
  | Strat.cont => render_new_strokes L
  | Strat.cached i => render_cached i L
  | Strat.fromEmpty => render_from_empty L

/-- The full-rebuild cost (lines 234–236): one per stroke, plus 3 when a
background pixbuf must be loaded. -/
def rebuild_cost (L : Layer) : Nat :=
  L.strokes.length + (if L.background.isSome then 3 else 0)

/-- The candidate options other than the first (lines 207–237): one per cache
entry, with the snapshot-load penalty of 3, then the full rebuild. -/
def rerender_rest (L : Layer) : List (Nat × Strat) :=
  (L.caches.enum.map fun p =>
    (count_strokes_from L (readRef L.heap p.2.strokes) p.2.background + 3,
     Strat.cached p.1))
  ++ [(rebuild_cost L, Strat.fromEmpty)]

/-- All candidate options in the order the source appends them (line 196
onward): continue-from-rendered first, then caches in stored order, then the
full rebuild. -/
def rerender_options (L : Layer) : List (Nat × Strat) :=
  (rendered_cost L, Strat.cont) :: rerender_rest L

/-- The selection `min(options)` (line 239), modelled as the fold Python's
`min` performs: the running best is replaced only by a strictly cheaper
candidate, so the earliest-listed candidate among equal costs is kept.
(Python 2 tuple comparison on `(cost, closure)` pairs would, on a cost tie,
fall through to comparing the closure objects by address; the model resolves
such ties to the earliest candidate, and no theorem below depends on which
equal-cost candidate is taken.) -/
def pickMin : Nat × Strat → List (Nat × Strat) → Nat × Strat
  | best, [] => best
  | best, o :: rest => pickMin (if o.1 < best.1 then o else best) rest

/-- rerender (lines 160–249).  Early exit when continuing costs at most 1;
otherwise evaluate all options, return the minimum cost in estimate-only
mode, and otherwise execute the winner and return its cost. -/
def rerender (L : Layer) (only_estimate_cost : Bool) : Option (Nat × Layer) :=
  let cost1 := rendered_cost L
  if cost1 ≤ 1 then
    if 0 < cost1 ∧ only_estimate_cost = false then
      (render_new_strokes L).map fun l => (cost1, l)
    else some (cost1, L)
  else
    let best := pickMin (cost1, Strat.cont) (rerender_rest L)
    if only_estimate_cost then some (best.1, L)
    else (exec_strategy L best.2).map fun l => (best.1, l)

/-- Well-formedness of the heap references of a layer: the rendered stroke
list and every cache's stroke list are live heap cells, and no cache entry
aliases the rendered list (the source maintains this by always storing `[:]`
copies). -/
def WF (L : Layer) : Prop :=
  L.rendered.strokes < L.heap.length ∧
  ∀ c ∈ L.caches, c.strokes < L.heap.length ∧ c.strokes ≠ L.rendered.strokes

instance (L : Layer) : Decidable (WF L) := by
  unfold WF
  infer_instance

/-- A cache operation, as named by the spec: `populate` is a
cache-population trigger, `hit i` a cache hit on entry `i`. -/
inductive CacheOp where
  | populate : CacheOp
  | hit (i : Nat) : CacheOp
deriving DecidableEq, Repr

/-- The effect of one cache operation on the cache list: `populate` runs
populate_cache (lines 131–158); `hit i` performs the LRU move of
render_cached (lines 214–216): remove the used entry and append it at the
most-recently-used end.  An out-of-range hit (which the source never
performs: the entry was just iterated over) leaves the layer unchanged. -/
def cache_step (L : Layer) : CacheOp → Layer
  | CacheOp.populate => populate_cache L
  | CacheOp.hit i =>
    match L.caches[i]? with
    | none => L
    | some c => { L with caches := L.caches.eraseIdx i ++ [c] }

/-- A finished, already-rendered stroke with serial number 1,
used as a concrete input. -/
def s0 : Stroke :=
  { serial := 1, finished := true, rendered := true,
    brush_settings := 5, brush_state := 6, seed := 7, stroke_data := 8 }

/-- A layer whose rendered state (the empty list, heap cell 0) lags its
single desired stroke by one. -/
def Lw : Layer :=
  { heap := [[]], surface := { background := none, strokes := [] },
    strokes := [1], background := none,
    rendered := { strokes := 0, background := none },
    caches := [], strokes_to_cache := 6 }

/-- The result of `rerender Lw false`. -/
def Lw1 : Layer :=
  { heap := [[1]], surface := { background := none, strokes := [1] },
    strokes := [1], background := none,
    rendered := { strokes := 0, background := none },
    caches := [], strokes_to_cache := 6 }

/-- A layer with one cache entry (heap cell 1) and one stroke left to
replay from the rendered state (heap cell 0). -/
def Lc : Layer :=
  { heap := [[1, 2], [1]], surface := { background := none, strokes := [1, 2] },
    strokes := [1, 2, 3], background := none,
    rendered := { strokes := 0, background := none },
    caches := [{ strokes := 1, background := none,
                 snapshot := { background := none, strokes := [1] } }],
    strokes_to_cache := 6 }

/-- The result of `rerender Lc false`. -/
def Lc' : Layer :=
  { heap := [[1, 2, 3], [1]], surface := { background := none, strokes := [1, 2, 3] },
    strokes := [1, 2, 3], background := none,
    rendered := { strokes := 0, background := none },
    caches := [{ strokes := 1, background := none,
                 snapshot := { background := none, strokes := [1] } }],
    strokes_to_cache := 6 }

/-- A layer with 6 of its 19 strokes rendered, so that a suffix replay of 13
strokes (more than twice the threshold of 6) is needed. -/
def L19 : Layer :=
  { heap := [[1, 2, 3, 4, 5, 6]],
    surface := { background := none, strokes := [1, 2, 3, 4, 5, 6] },
    strokes := [1, 2, 3, 4, 5, 6, 7, 8, 9, 10, 11, 12, 13, 14, 15, 16, 17, 18, 19],
    background := none,
    rendered := { strokes := 0, background := none },
    caches := [], strokes_to_cache := 6 }

/-- The result of `render_new_strokes L19`: two cache entries were created
during the replay, capturing 8 and 14 of the 19 strokes. -/
def L19' : Layer :=
  { heap := [[1, 2, 3, 4, 5, 6, 7, 8, 9, 10, 11, 12, 13, 14, 15, 16, 17, 18, 19],
             [1, 2, 3, 4, 5, 6, 7, 8],
             [1, 2, 3, 4, 5, 6, 7, 8, 9, 10, 11, 12, 13, 14]],
    surface := { background := none,
                 strokes := [1, 2, 3, 4, 5, 6, 7, 8, 9, 10, 11, 12, 13,
                             14, 15, 16, 17, 18, 19] },
    strokes := [1, 2, 3, 4, 5, 6, 7, 8, 9, 10, 11, 12, 13, 14, 15, 16, 17, 18, 19],
    background := none,
    rendered := { strokes := 0, background := none },
    caches := [{ strokes := 1, background := none,
                 snapshot := { background := none,
                               strokes := [1, 2, 3, 4, 5, 6, 7, 8] } },
               { strokes := 2, background := none,
                 snapshot := { background := none,
                               strokes := [1, 2, 3, 4, 5, 6, 7, 8, 9, 10,
                                           11, 12, 13, 14] } }],
    strokes_to_cache := 6 }

/-- A layer whose rendered state lags by 5 strokes, so that the full option
list is evaluated. -/
def L5 : Layer :=
  { heap := [[]], surface := { background := none, strokes := [] },
    strokes := [1, 2, 3, 4, 5], background := none,
    rendered := { strokes := 0, background := none },
    caches := [], strokes_to_cache := 6 }

/-! ### Heap basics -/

theorem readRef_append_lt (h : Heap) (v : List Nat) (r : Nat) (hr : r < h.length) :
    readRef (h ++ [v]) r = readRef h r := by
  simp [readRef, List.getD_eq_getElem?_getD, List.getElem?_append_left hr]

theorem readRef_append_self (h : Heap) (v : List Nat) :
    readRef (h ++ [v]) h.length = v := by
  simp [readRef, List.getD_eq_getElem?_getD, List.getElem?_concat_length]

theorem readRef_set_self (h : Heap) (r : Nat) (v : List Nat) (hr : r < h.length) :
    readRef (writeRef h r v) r = v := by
  simp [readRef, writeRef, List.getD_eq_getElem?_getD, List.getElem?_set, hr]

theorem readRef_set_ne (h : Heap) (r r' : Nat) (v : List Nat) (hne : r' ≠ r) :
    readRef (writeRef h r' v) r = readRef h r := by
  simp [readRef, writeRef, List.getD_eq_getElem?_getD, List.getElem?_set, hne]

/-! ### populate_cache structure -/

theorem populate_cache_eq_or (L : Layer) :
    populate_cache L = L ∨
    populate_cache L =
      { L with
        heap := L.heap ++ [readRef L.heap L.rendered.strokes],
        caches := L.caches.drop (L.caches.length - 2)
          ++ [{ strokes := L.heap.length, background := L.rendered.background,
                snapshot := L.surface }] } := by
  unfold populate_cache
  split_ifs <;> simp

theorem populate_cache_strokes (L : Layer) : (populate_cache L).strokes = L.strokes := by
  rcases populate_cache_eq_or L with h | h <;> rw [h]

theorem populate_cache_background (L : Layer) :
    (populate_cache L).background = L.background := by
  rcases populate_cache_eq_or L with h | h <;> rw [h]

theorem populate_cache_rendered (L : Layer) :
    (populate_cache L).rendered = L.rendered := by
  rcases populate_cache_eq_or L with h | h <;> rw [h]

theorem populate_cache_surface (L : Layer) : (populate_cache L).surface = L.surface := by
  rcases populate_cache_eq_or L with h | h <;> rw [h]

theorem populate_cache_stc (L : Layer) :
    (populate_cache L).strokes_to_cache = L.strokes_to_cache := by
  rcases populate_cache_eq_or L with h | h <;> rw [h]

theorem populate_cache_heap_le (L : Layer) :
    L.heap.length ≤ (populate_cache L).heap.length := by
  rcases populate_cache_eq_or L with h | h
  · rw [h]
  · rw [h]
    simp

theorem populate_cache_frame (L : Layer) (r : Nat) (hr : r < L.heap.length) :
    readRef (populate_cache L).heap r = readRef L.heap r := by
  rcases populate_cache_eq_or L with h | h
  · rw [h]
  · rw [h]
    exact readRef_append_lt _ _ _ hr

theorem populate_cache_mem (L : Layer) (e : Cache)
    (he : e ∈ (populate_cache L).caches) :
    e ∈ L.caches ∨
    ((populate_cache L).heap = L.heap ++ [readRef L.heap L.rendered.strokes] ∧
     e = { strokes := L.heap.length, background := L.rendered.background,
           snapshot := L.surface }) := by
  rcases populate_cache_eq_or L with h | h
  · rw [h] at he; exact Or.inl he
  · rw [h] at he
    rcases List.mem_append.mp he with h1 | h1
    · exact Or.inl (List.mem_of_mem_drop h1)
    · right
      rw [h]
      exact ⟨rfl, List.mem_singleton.mp h1⟩

theorem populate_cache_wf (L : Layer) (hwf : WF L) : WF (populate_cache L) := by
  rcases populate_cache_eq_or L with h | h <;> rw [h]
  · exact hwf
  obtain ⟨hr, hc⟩ := hwf
  refine ⟨by simpa using Nat.lt_succ_of_lt hr, ?_⟩
  intro c hcmem
  rcases List.mem_append.mp hcmem with h1 | h1
  · obtain ⟨h2, h3⟩ := hc c (List.mem_of_mem_drop h1)
    exact ⟨by simpa using Nat.lt_succ_of_lt h2, h3⟩
  · rw [List.mem_singleton.mp h1]
    exact ⟨by simp, Nat.ne_of_gt hr⟩

/-! ### renderStep structure -/

theorem renderStep_strokes (L : Layer) (s : Nat) : (renderStep L s).strokes = L.strokes := rfl

theorem renderStep_background (L : Layer) (s : Nat) :
    (renderStep L s).background = L.background := rfl

theorem renderStep_rendered (L : Layer) (s : Nat) :
    (renderStep L s).rendered = L.rendered := rfl

theorem renderStep_caches (L : Layer) (s : Nat) : (renderStep L s).caches = L.caches := rfl

theorem renderStep_stc (L : Layer) (s : Nat) :
    (renderStep L s).strokes_to_cache = L.strokes_to_cache := rfl

theorem renderStep_heap_length (L : Layer) (s : Nat) :
    (renderStep L s).heap.length = L.heap.length := by
  simp [renderStep, writeRef]

theorem renderStep_read_self (L : Layer) (s : Nat)
    (hr : L.rendered.strokes < L.heap.length) :
    readRef (renderStep L s).heap L.rendered.strokes
      = readRef L.heap L.rendered.strokes ++ [s] :=
  readRef_set_self _ _ _ hr

theorem renderStep_frame (L : Layer) (s : Nat) (r : Nat)
    (hne : L.rendered.strokes ≠ r) :
    readRef (renderStep L s).heap r = readRef L.heap r :=
  readRef_set_ne _ _ _ _ hne

theorem renderStep_wf (L : Layer) (s : Nat) (hwf : WF L) : WF (renderStep L s) := by
  obtain ⟨hr, hc⟩ := hwf
  refine ⟨by rwa [renderStep_heap_length, renderStep_rendered], ?_⟩
  intro c hcmem
  rw [renderStep_caches] at hcmem
  obtain ⟨h2, h3⟩ := hc c hcmem
  rw [renderStep_heap_length, renderStep_rendered]
  exact ⟨h2, h3⟩

/-! ### renderLoop structure -/

theorem renderLoop_strokes (ns : List Nat) :
    ∀ (ca : Caching) (L : Layer), (renderLoop ns ca L).strokes = L.strokes := by
  induction ns with
  | nil => intro ca L; rfl
  | cons s rest ih =>
    intro ca L
    rcases ca with _ | m
    · rw [renderLoop, ih, populate_cache_strokes, renderStep_strokes]
    · rw [renderLoop]
      by_cases h : m = s
      · rw [if_pos h, ih, populate_cache_strokes, renderStep_strokes]
      · rw [if_neg h, ih, renderStep_strokes]

theorem renderLoop_background (ns : List Nat) :
    ∀ (ca : Caching) (L : Layer), (renderLoop ns ca L).background = L.background := by
  induction ns with
  | nil => intro ca L; rfl
  | cons s rest ih =>
    intro ca L
    rcases ca with _ | m
    · rw [renderLoop, ih, populate_cache_background, renderStep_background]
    · rw [renderLoop]
      by_cases h : m = s
      · rw [if_pos h, ih, populate_cache_background, renderStep_background]
      · rw [if_neg h, ih, renderStep_background]

theorem renderLoop_rendered (ns : List Nat) :
    ∀ (ca : Caching) (L : Layer), (renderLoop ns ca L).rendered = L.rendered := by
  induction ns with
  | nil => intro ca L; rfl
  | cons s rest ih =>
    intro ca L
    rcases ca with _ | m
    · rw [renderLoop, ih, populate_cache_rendered, renderStep_rendered]
    · rw [renderLoop]
      by_cases h : m = s
      · rw [if_pos h, ih, populate_cache_rendered, renderStep_rendered]
      · rw [if_neg h, ih, renderStep_rendered]

theorem renderLoop_stc (ns : List Nat) :
    ∀ (ca : Caching) (L : Layer),
      (renderLoop ns ca L).strokes_to_cache = L.strokes_to_cache := by
  induction ns with
  | nil => intro ca L; rfl
  | cons s rest ih =>
    intro ca L
    rcases ca with _ | m
    · rw [renderLoop, ih, populate_cache_stc, renderStep_stc]
    · rw [renderLoop]
      by_cases h : m = s
      · rw [if_pos h, ih, populate_cache_stc, renderStep_stc]
      · rw [if_neg h, ih, renderStep_stc]

theorem renderLoop_heap_le (ns : List Nat) :
    ∀ (ca : Caching) (L : Layer), L.heap.length ≤ (renderLoop ns ca L).heap.length := by
  induction ns with
  | nil => intro ca L; exact Nat.le_refl _
  | cons s rest ih =>
    intro ca L
    rcases ca with _ | m
    · rw [renderLoop]
      refine Nat.le_trans ?_ (ih Caching.on _)
      refine Nat.le_trans ?_ (populate_cache_heap_le _)
      rw [renderStep_heap_length]
    ·
      rw [renderLoop]
      by_cases h : m = s
      · rw [if_pos h]
        refine Nat.le_trans ?_ (ih Caching.on _)
        refine Nat.le_trans ?_ (populate_cache_heap_le _)
        rw [renderStep_heap_length]
      · rw [if_neg h]
        refine Nat.le_trans ?_ (ih (Caching.waiting m) _)
        rw [renderStep_heap_length]

theorem renderLoop_frame (ns : List Nat) :
    ∀ (ca : Caching) (L : Layer) (r : Nat), r < L.heap.length →
      r ≠ L.rendered.strokes →
      readRef (renderLoop ns ca L).heap r = readRef L.heap r := by
  induction ns with
  | nil => intro ca L r _ _; rfl
  | cons s rest ih =>
    intro ca L r hr hne
    have hstep : readRef (populate_cache (renderStep L s)).heap r = readRef L.heap r := by
      rw [populate_cache_frame _ _ (by rwa [renderStep_heap_length]),
        renderStep_frame _ _ _ (Ne.symm hne)]
    have hlt : r < (populate_cache (renderStep L s)).heap.length := by
      refine Nat.lt_of_lt_of_le ?_ (populate_cache_heap_le _)
      rwa [renderStep_heap_length]
    have hne' : r ≠ (populate_cache (renderStep L s)).rendered.strokes := by
      rwa [populate_cache_rendered, renderStep_rendered]
    rcases ca with _ | m
    · rw [renderLoop, ih Caching.on _ r hlt hne', hstep]
    ·
      rw [renderLoop]
      by_cases h : m = s
      · rw [if_pos h, ih Caching.on _ r hlt hne', hstep]
      · rw [if_neg h,
          ih (Caching.waiting m) _ r (by rwa [renderStep_heap_length])
            (by rwa [renderStep_rendered]),
          renderStep_frame _ _ _ (Ne.symm hne)]

theorem renderLoop_wf (ns : List Nat) :
    ∀ (ca : Caching) (L : Layer), WF L → WF (renderLoop ns ca L) := by
  induction ns with
  | nil => intro ca L hwf; exact hwf
  | cons s rest ih =>
    intro ca L hwf
    rcases ca with _ | m
    · rw [renderLoop]
      exact ih Caching.on _ (populate_cache_wf _ (renderStep_wf _ _ hwf))
    ·
      rw [renderLoop]
      by_cases h : m = s
      · rw [if_pos h]
        exact ih Caching.on _ (populate_cache_wf _ (renderStep_wf _ _ hwf))
      · rw [if_neg h]
        exact ih (Caching.waiting m) _ (renderStep_wf _ _ hwf)

/-! ### render_new_strokes and strategy execution -/

theorem finish_check_some (L2 L' : Layer) (h : finish_check L2 = some L') :
    L' = L2 ∧ readRef L2.heap L2.rendered.strokes = L2.strokes := by
  unfold finish_check at h
  by_cases hc : readRef L2.heap L2.rendered.strokes = L2.strokes
  · rw [if_pos hc] at h
    exact ⟨(Option.some_inj.mp h).symm, hc⟩
  · rw [if_neg hc] at h
    cases h

theorem rns_spec (L L' : Layer) (h : render_new_strokes L = some L') :
    readRef L'.heap L'.rendered.strokes = L'.strokes ∧
    L'.strokes = L.strokes ∧
    L'.background = L.background ∧
    L'.rendered = L.rendered ∧
    L'.strokes_to_cache = L.strokes_to_cache ∧
    L.heap.length ≤ L'.heap.length ∧
    (∀ r, r < L.heap.length → r ≠ L.rendered.strokes →
      readRef L'.heap r = readRef L.heap r) := by
  unfold render_new_strokes at h
  split at h
  · cases h
  · obtain ⟨hL', hok⟩ := finish_check_some _ _ h
    subst hL'
    exact ⟨hok, renderLoop_strokes _ _ _, renderLoop_background _ _ _,
      renderLoop_rendered _ _ _, renderLoop_stc _ _ _, renderLoop_heap_le _ _ _,
      fun r h1 h2 => renderLoop_frame _ _ _ _ h1 h2⟩

theorem exec_strategy_spec (L : Layer) (st : Strat) (L' : Layer)
    (h : exec_strategy L st = some L') :
    readRef L'.heap L'.rendered.strokes = L'.strokes ∧ L'.strokes = L.strokes := by
  cases st with
  | cont =>
    simp only [exec_strategy] at h
    obtain ⟨a, b, -⟩ := rns_spec _ _ h
    exact ⟨a, b⟩
  | cached i =>
    simp only [exec_strategy] at h
    unfold render_cached at h
    split at h
    · cases h
    · obtain ⟨a, b, -⟩ := rns_spec _ _ h
      exact ⟨a, b⟩
  | fromEmpty =>
    simp only [exec_strategy] at h
    unfold render_from_empty at h
    obtain ⟨a, b, -⟩ := rns_spec _ _ h
    exact ⟨a, b⟩

theorem exec_strategy_frame (L : Layer) (st : Strat) (L' : Layer)
    (h : exec_strategy L st = some L') (r : Nat) (hr : r < L.heap.length)
    (hne : r ≠ L.rendered.strokes) :
    readRef L'.heap r = readRef L.heap r := by
  cases st with
  | cont =>
    simp only [exec_strategy] at h
    exact (rns_spec _ _ h).2.2.2.2.2.2 r hr hne
  | cached i =>
    simp only [exec_strategy] at h
    unfold render_cached at h
    split at h
    · cases h
    · have hfr := (rns_spec _ _ h).2.2.2.2.2.2 r
        (by simpa using Nat.lt_succ_of_lt hr) (Nat.ne_of_lt hr)
      rw [hfr, readRef_append_lt _ _ _ hr]
  | fromEmpty =>
    simp only [exec_strategy] at h
    unfold render_from_empty at h
    have hfr := (rns_spec _ _ h).2.2.2.2.2.2 r
      (by simpa using Nat.lt_succ_of_lt hr) (Nat.ne_of_lt hr)
    rw [hfr, readRef_append_lt _ _ _ hr]

/-! ### count_strokes_from -/

theorem count_strokes_from_eq (L : Layer) (rs : List Nat) (rbg : Option Nat) :
    count_strokes_from L rs rbg =
      if rbg = L.background ∧ rs = L.strokes.take rs.length then
        L.strokes.length - rs.length
      else infinity := by
  unfold count_strokes_from strokes_from_to
  by_cases h1 : rbg = L.background
  · by_cases h2 : rs = L.strokes.take rs.length
    · rw [if_neg (fun hh => hh h1), if_pos h2, if_pos ⟨h1, h2⟩]
      exact List.length_drop _ _
    · rw [if_neg (fun hh => hh h1), if_neg h2, if_neg (fun hc => h2 hc.2)]
  · rw [if_pos h1, if_neg (fun hc => h1 hc.1)]

theorem count_strokes_from_le_one (L : Layer) (rs : List Nat) (rbg : Option Nat)
    (h : count_strokes_from L rs rbg ≤ 1) :
    count_strokes_from L rs rbg ≤ L.strokes.length := by
  rw [count_strokes_from_eq] at h ⊢
  by_cases hc : rbg = L.background ∧ rs = L.strokes.take rs.length
  · rw [if_pos hc]
    exact Nat.sub_le _ _
  · rw [if_neg hc] at h
    exact absurd h (by norm_num [infinity])

theorem rendered_cost_zero (L : Layer) (h : rendered_cost L = 0) :
    readRef L.heap L.rendered.strokes = L.strokes := by
  unfold rendered_cost at h
  rw [count_strokes_from_eq] at h
  by_cases hc : L.rendered.background = L.background ∧
      readRef L.heap L.rendered.strokes
        = L.strokes.take (readRef L.heap L.rendered.strokes).length
  · rw [if_pos hc] at h
    have hlen : L.strokes.length ≤ (readRef L.heap L.rendered.strokes).length :=
      Nat.le_of_sub_eq_zero h
    rw [hc.2]
    exact List.take_of_length_le hlen
  · rw [if_neg hc] at h
    exact absurd h (by norm_num [infinity])

/-! ### pickMin -/

theorem pickMin_le_head : ∀ (l : List (Nat × Strat)) (b : Nat × Strat),
    (pickMin b l).1 ≤ b.1 := by
  intro l
  induction l with
  | nil => intro b; exact Nat.le_refl _
  | cons o rest ih =>
    intro b
    rw [pickMin]
    by_cases h : o.1 < b.1
    · rw [if_pos h]
      exact Nat.le_trans (ih _) (Nat.le_of_lt h)
    · rw [if_neg h]
      exact ih _

theorem pickMin_le_mem : ∀ (l : List (Nat × Strat)) (b : Nat × Strat),
    ∀ x ∈ l, (pickMin b l).1 ≤ x.1 := by
  intro l
  induction l with
  | nil => intro b x hx; cases hx
  | cons o rest ih =>
    intro b x hx
    rw [pickMin]
    rcases List.mem_cons.mp hx with hx | hx
    · subst hx
      by_cases h : x.1 < b.1
      · rw [if_pos h]
        exact pickMin_le_head _ _
      · rw [if_neg h]
        exact Nat.le_trans (pickMin_le_head _ _) (Nat.le_of_not_lt h)
    · exact ih _ x hx

theorem pickMin_mem : ∀ (l : List (Nat × Strat)) (b : Nat × Strat),
    pickMin b l = b ∨ pickMin b l ∈ l := by
  intro l
  induction l with
  | nil => intro b; exact Or.inl rfl
  | cons o rest ih =>
    intro b
    rw [pickMin]
    rcases ih (if o.1 < b.1 then o else b) with h | h
    · rw [h]
      by_cases hc : o.1 < b.1
      · rw [if_pos hc]
        exact Or.inr (List.mem_cons_self _ _)
      · rw [if_neg hc]
        exact Or.inl rfl
    · exact Or.inr (List.mem_cons_of_mem _ h)

/-! ### Claim C2 -/

/-- Claim C2: for every Layer and reference point (strokes, background),
count_strokes_from returns the infinite sentinel if the reference background
differs from the layer background (regardless of any stroke match) or if the
reference strokes are not an exact identity-prefix of the layer's strokes;
otherwise it returns `len(L.strokes) - len(r.strokes)`.  The take-equality in
the condition is exactly the prefix property, as the second conjunct
records. -/
theorem C2_count_strokes_from (L : Layer) (rs : List Nat) (rbg : Option Nat) :
    (count_strokes_from L rs rbg =
      if rbg = L.background ∧ rs = L.strokes.take rs.length then
        L.strokes.length - rs.length
      else infinity) ∧
    (rs = L.strokes.take rs.length ↔ ∃ t, rs ++ t = L.strokes) := by
  refine ⟨count_strokes_from_eq L rs rbg, ?_, ?_⟩
  · intro htk
    have hta := List.take_append_drop rs.length L.strokes
    rw [← htk] at hta
    exact ⟨_, hta⟩
  · rintro ⟨t, ht⟩
    rw [← ht]
    exact (List.take_left rs t).symm

/-! ### Claim C7 -/

/-- Claim C7 counterexample: copying the finished stroke `s0` (serial 1, with
the class counter at 1) yields a stroke whose serial number is 1 — the same
as the original's, not a distinct one: `s = Stroke()` draws serial 2, but
`s.__dict__.update(self.__dict__)` overwrites it with the original's. -/
theorem C7_counterexample :
    Stroke.copy s0 1
      = some ({ serial := 1, finished := true, rendered := false,
                brush_settings := 5, brush_state := 6, seed := 7,
                stroke_data := 8 }, 2)
    ∧ s0.serial = 1 := by
  exact ⟨rfl, rfl⟩

/-- Claim C7 (amended): copying a finished stroke returns a new Stroke
sharing all of the original's captured attributes — including, contrary to
the original claim, its serial number, because the attribute copy overwrites
the freshly drawn serial — with a cleared rendered flag; the class counter is
still advanced. -/
theorem C7_amended (s : Stroke) (counter : Nat) (h : s.finished = true) :
    Stroke.copy s counter = some ({ s with rendered := false }, counter + 1) := by
  unfold Stroke.copy
  rw [if_pos h]

/-- Witness for C7_amended at the concrete stroke s0. -/
theorem C7_amended_witness :
    Stroke.copy s0 3 = some ({ s0 with rendered := false }, 4) :=
  C7_amended s0 3 rfl

/-! ### Claim C8 -/

/-- Claim C8 counterexample: on a freshly copied stroke (finished, not yet
rendered) a second change_brush_settings call before any render also
succeeds — the source only asserts `finished` and `not rendered`, and
change_brush_settings sets no flag, so "any further call before rendering
fails" is false. -/
theorem C8_counterexample :
    Stroke.change_brush_settings { s0 with rendered := false } 42
      = some { s0 with rendered := false, brush_settings := 42 } ∧
    Stroke.change_brush_settings { s0 with rendered := false, brush_settings := 42 } 43
      = some { s0 with rendered := false, brush_settings := 43 } := by
  exact ⟨rfl, rfl⟩

/-- Claim C8 (amended): change_brush_settings succeeds exactly when the
stroke is finished and not yet rendered; a successful call leaves both flags
unchanged, so any number of further calls before the first render also
succeed; it fails whenever the stroke is unfinished or has been rendered,
and in particular after Stroke.render. -/
theorem C8_amended (s : Stroke) (v w : Nat) :
    (s.finished = true ∧ s.rendered = false →
      Stroke.change_brush_settings s v = some { s with brush_settings := v } ∧
      Stroke.change_brush_settings { s with brush_settings := v } w
        = some { s with brush_settings := w }) ∧
    (s.finished = false ∨ s.rendered = true →
      Stroke.change_brush_settings s v = none) ∧
    (∀ s2, Stroke.render s = some s2 →
      Stroke.change_brush_settings s2 v = none) := by
  obtain ⟨ser, fin, ren, bs, bst, sd, st⟩ := s
  cases fin <;> cases ren <;>
    simp [Stroke.change_brush_settings, Stroke.render]

/-- Witness for C8_amended: on the already-rendered stroke s0 the call
fails. -/
theorem C8_amended_witness : Stroke.change_brush_settings s0 42 = none :=
  (C8_amended s0 42 0).2.1 (Or.inr rfl)

/-! ### Claim C4 -/

/-- Claim C4: when the continue-from-rendered cost is at most 1, rerender
returns that cost without ever building the cache or full-rebuild options;
unless the call is estimate-only, it runs the suffix replay directly when the
cost is positive, and with cost 0 it returns with the layer untouched. -/
theorem C4_early_exit (L : Layer) (b : Bool) (h : rendered_cost L ≤ 1) :
    rerender L b =
      if 0 < rendered_cost L ∧ b = false then
        (render_new_strokes L).map fun l => (rendered_cost L, l)
      else some (rendered_cost L, L) := by
  simp only [rerender]
  rw [if_pos h]

/-- Witness for C4_early_exit at the concrete layer Lw (cost 1). -/
theorem C4_witness :
    rerender Lw false =
      if 0 < rendered_cost Lw ∧ false = false then
        (render_new_strokes Lw).map fun l => (rendered_cost Lw, l)
      else some (rendered_cost Lw, Lw) :=
  C4_early_exit Lw false (by decide)

/-! ### Claim C1 -/

/-- Claim C1: after a completed `rerender(false)` the rendered stroke
sequence equals the layer's desired stroke sequence exactly (same identities,
order and length, as list equality of stroke identities), and the desired
sequence itself was not changed by the call. -/
theorem C1_rerender_syncs (L : Layer) (c : Nat) (L' : Layer)
    (h : rerender L false = some (c, L')) :
    readRef L'.heap L'.rendered.strokes = L'.strokes ∧ L'.strokes = L.strokes := by
  simp only [rerender] at h
  by_cases h1 : rendered_cost L ≤ 1
  · rw [if_pos h1] at h
    by_cases h2 : 0 < rendered_cost L
    · rw [if_pos ⟨h2, trivial⟩] at h
      rcases Option.map_eq_some'.mp h with ⟨l, hl, hfl⟩
      have hL' : l = L' := congrArg Prod.snd hfl
      subst hL'
      obtain ⟨a, b2, -⟩ := rns_spec _ _ hl
      exact ⟨a, b2⟩
    · rw [if_neg (fun hc => h2 hc.1)] at h
      have heq := Option.some_inj.mp h
      have hL : L = L' := congrArg Prod.snd heq
      have hc0 : rendered_cost L = 0 := Nat.eq_zero_of_not_pos h2
      subst hL
      exact ⟨rendered_cost_zero L hc0, rfl⟩
  · rw [if_neg h1] at h
    rw [if_neg (by simp)] at h
    rcases Option.map_eq_some'.mp h with ⟨l, hl, hfl⟩
    have hL' : l = L' := congrArg Prod.snd hfl
    subst hL'
    exact exec_strategy_spec _ _ _ hl

/-- Witness for C1_rerender_syncs at the concrete layer Lw, whose rerender
completes with result Lw1. -/
theorem C1_witness :
    readRef Lw1.heap Lw1.rendered.strokes = Lw1.strokes ∧ Lw1.strokes = Lw.strokes :=
  C1_rerender_syncs Lw 1 Lw1 (by decide)

/-! ### Claim C9 -/

/-- Claim C9: `rerender(true)` (estimate-only) returns the minimum cost over
the candidate options — the returned cost is one of the candidates' costs and
is at most every candidate's cost — while leaving the layer (strokes,
rendered marker, caches, heap cells and surface pixels alike) completely
unchanged: the returned layer is the input layer. -/
theorem C9_estimate_only (L : Layer) (c : Nat) (L' : Layer)
    (h : rerender L true = some (c, L')) :
    L' = L ∧ c ∈ (rerender_options L).map Prod.fst ∧
      ∀ x ∈ (rerender_options L).map Prod.fst, c ≤ x := by
  simp only [rerender] at h
  by_cases h1 : rendered_cost L ≤ 1
  · rw [if_pos h1] at h
    rw [if_neg (by simp)] at h
    have heq := Option.some_inj.mp h
    have hc : rendered_cost L = c := congrArg Prod.fst heq
    have hL : L = L' := congrArg Prod.snd heq
    refine ⟨hL.symm, ?_, ?_⟩
    · rw [← hc]
      exact List.mem_map_of_mem Prod.fst (List.mem_cons_self _ _)
    · intro x hx
      rw [← hc]
      rcases List.mem_map.mp hx with ⟨p, hp, rfl⟩
      rcases List.mem_cons.mp hp with rfl | hp
      · exact Nat.le_refl _
      · unfold rerender_rest at hp
        rcases List.mem_append.mp hp with hp | hp
        · rcases List.mem_map.mp hp with ⟨q, -, rfl⟩
          exact Nat.le_trans h1 (Nat.le_trans (by norm_num) (Nat.le_add_left 3 _))
        · rw [List.mem_singleton.mp hp]
          unfold rebuild_cost
          exact Nat.le_trans (count_strokes_from_le_one _ _ _ h1) (Nat.le_add_right _ _)
  · rw [if_neg h1] at h
    rw [if_pos trivial] at h
    have heq := Option.some_inj.mp h
    have hc : (pickMin (rendered_cost L, Strat.cont) (rerender_rest L)).1 = c :=
      congrArg Prod.fst heq
    have hL : L = L' := congrArg Prod.snd heq
    refine ⟨hL.symm, ?_, ?_⟩
    · rw [← hc]
      rcases pickMin_mem (rerender_rest L) (rendered_cost L, Strat.cont) with hm | hm
      · rw [hm]
        exact List.mem_map_of_mem Prod.fst (List.mem_cons_self _ _)
      · exact List.mem_map_of_mem Prod.fst (List.mem_cons_of_mem _ hm)
    · intro x hx
      rw [← hc]
      rcases List.mem_map.mp hx with ⟨p, hp, rfl⟩
      rcases List.mem_cons.mp hp with rfl | hp
      · exact pickMin_le_head _ _
      · exact pickMin_le_mem _ _ p hp

/-- Witness for C9_estimate_only at the concrete layer L5 (cost 5, a tie
between continuing and a full rebuild). -/
theorem C9_witness :
    L5 = L5 ∧ (5 : Nat) ∈ (rerender_options L5).map Prod.fst ∧
      ∀ x ∈ (rerender_options L5).map Prod.fst, 5 ≤ x :=
  C9_estimate_only L5 5 L5 (by decide)

/-! ### Claim C3 -/

theorem cache_step_length (L : Layer) (op : CacheOp) (h : L.caches.length ≤ 3) :
    (cache_step L op).caches.length ≤ 3 := by
  cases op with
  | populate =>
    rcases populate_cache_eq_or L with he | he
    · rw [cache_step, he]
      exact h
    · rw [cache_step, he]
      simp only [List.length_append, List.length_drop, List.length_singleton]
      omega
  | hit i =>
    rw [cache_step]
    split
    · exact h
    · next c hc =>
      have hi : i < L.caches.length := by
        rcases List.getElem?_eq_some.mp hc with ⟨hlt, -⟩
        exact hlt
      simp only [List.length_append, List.length_eraseIdx, List.length_singleton,
        if_pos hi]
      omega

theorem foldl_cache_step_length :
    ∀ (ops : List CacheOp) (L : Layer), L.caches.length ≤ 3 →
      ((ops.foldl cache_step L).caches.length ≤ 3) := by
  intro ops
  induction ops with
  | nil => intro L h; exact h
  | cons op rest ih =>
    intro L h
    rw [List.foldl_cons]
    exact ih _ (cache_step_length L op h)

/-- Claim C3: starting from a layer holding at most 3 cache entries, any
sequence of cache-population and cache-hit operations keeps the cache list
at length at most 3.  Moreover populate_cache either leaves the list alone or
evicts from index 0 (popping the front until at most `max_caches - 1 = 2`
entries remain) and appends the new entry at the end, and a cache hit moves
the used entry to the end — so the list stays ordered by recency of use,
least recently used at index 0. -/
theorem C3_cache_lru (L : Layer) (h : L.caches.length ≤ 3) :
    (∀ ops : List CacheOp, (ops.foldl cache_step L).caches.length ≤ 3) ∧
    ((populate_cache L).caches = L.caches ∨
      (populate_cache L).caches =
        L.caches.drop (L.caches.length - 2)
          ++ [{ strokes := L.heap.length, background := L.rendered.background,
                snapshot := L.surface }]) ∧
    (∀ (i : Nat) (c : Cache), L.caches[i]? = some c →
      (cache_step L (CacheOp.hit i)).caches = L.caches.eraseIdx i ++ [c]) := by
  refine ⟨fun ops => foldl_cache_step_length ops L h, ?_, ?_⟩
  · rcases populate_cache_eq_or L with he | he
    · rw [he]
      exact Or.inl rfl
    · rw [he]
      exact Or.inr rfl
  · intro i c hc
    rw [cache_step, hc]

/-- Witness for C3_cache_lru at the concrete layer Lc with a populate and a
hit applied. -/
theorem C3_witness :
    (([CacheOp.populate, CacheOp.hit 0].foldl cache_step Lc).caches.length ≤ 3) ∧
    (cache_step Lc (CacheOp.hit 0)).caches
      = Lc.caches.eraseIdx 0
        ++ [{ strokes := 1, background := none,
              snapshot := { background := none, strokes := [1] } }] := by
  refine ⟨(C3_cache_lru Lc (by decide)).1 _, ?_⟩
  exact (C3_cache_lru Lc (by decide)).2.2 0 _ (by decide)

/-! ### Claim C10 -/

/-- Claim C10: every cache entry's stored stroke sequence is an independent
copy — populate_cache allocates a fresh cell for its `[:]` copy and
render_cached points `rendered` at a fresh copy of the entry's list — so a
reconcile never mutates the list object stored inside a pre-existing cache
entry: after any completed rerender, every heap cell referenced by a cache
entry of the original layer holds exactly its original contents. -/
theorem C10_cache_immutable (L : Layer) (b : Bool) (c : Nat) (L' : Layer)
    (hwf : WF L) (h : rerender L b = some (c, L')) :
    ∀ e ∈ L.caches, readRef L'.heap e.strokes = readRef L.heap e.strokes := by
  intro e he
  obtain ⟨hrl, hca⟩ := hwf
  obtain ⟨hlt, hne⟩ := hca e he
  simp only [rerender] at h
  by_cases h1 : rendered_cost L ≤ 1
  · rw [if_pos h1] at h
    by_cases h2 : 0 < rendered_cost L ∧ b = false
    · rw [if_pos h2] at h
      rcases Option.map_eq_some'.mp h with ⟨l, hl, hfl⟩
      have hL' : l = L' := congrArg Prod.snd hfl
      subst hL'
      exact (rns_spec _ _ hl).2.2.2.2.2.2 e.strokes hlt hne
    · rw [if_neg h2] at h
      have hL : L = L' := congrArg Prod.snd (Option.some_inj.mp h)
      rw [← hL]
  · rw [if_neg h1] at h
    by_cases hb : b = true
    · rw [if_pos hb] at h
      have hL : L = L' := congrArg Prod.snd (Option.some_inj.mp h)
      rw [← hL]
    · rw [if_neg hb] at h
      rcases Option.map_eq_some'.mp h with ⟨l, hl, hfl⟩
      have hL' : l = L' := congrArg Prod.snd hfl
      subst hL'
      exact exec_strategy_frame _ _ _ hl e.strokes hlt hne

/-- Witness for C10_cache_immutable at the concrete layer Lc, whose rerender
completes with result Lc', instantiated at its single cache entry (heap
cell 1). -/
theorem C10_witness : readRef Lc'.heap 1 = readRef Lc.heap 1 :=
  C10_cache_immutable Lc false 1 Lc' (by decide) (by decide)
    { strokes := 1, background := none,
      snapshot := { background := none, strokes := [1] } }
    (by decide)

/-! ### Claim C6 -/

theorem populate_step_base (L : Layer) (s : Nat) (hwf : WF L) :
    readRef (populate_cache (renderStep L s)).heap
        (populate_cache (renderStep L s)).rendered.strokes
      = readRef L.heap L.rendered.strokes ++ [s] := by
  rw [populate_cache_rendered, renderStep_rendered,
    populate_cache_frame _ _ (by rw [renderStep_heap_length]; exact hwf.1)]
  exact renderStep_read_self L s hwf.1

theorem populate_step_caches (L : Layer) (s : Nat) (rest : List Nat) (hwf : WF L)
    (e : Cache) (hmem : e ∈ (populate_cache (renderStep L s)).caches) :
    e ∈ L.caches ∨
    (readRef L.heap L.rendered.strokes).length
      < (readRef (renderLoop rest Caching.on (populate_cache (renderStep L s))).heap
          e.strokes).length := by
  rcases populate_cache_mem _ _ hmem with h2 | ⟨hheq, henew⟩
  · rw [renderStep_caches] at h2
    exact Or.inl h2
  · right
    subst henew
    have hlen2 : L.rendered.strokes < (renderStep L s).heap.length := by
      rw [renderStep_heap_length]
      exact hwf.1
    have hfr : readRef (renderLoop rest Caching.on
          (populate_cache (renderStep L s))).heap (renderStep L s).heap.length
        = readRef (populate_cache (renderStep L s)).heap
            (renderStep L s).heap.length := by
      apply renderLoop_frame
      · rw [hheq]
        simp
      · rw [populate_cache_rendered, renderStep_rendered]
        exact Ne.symm (Nat.ne_of_lt hlen2)
    dsimp only
    rw [hfr, hheq, readRef_append_self, renderStep_rendered,
      renderStep_read_self L s hwf.1]
    simp

theorem renderLoop_on : ∀ (ns : List Nat) (L : Layer), WF L →
    ∀ e ∈ (renderLoop ns Caching.on L).caches,
      e ∈ L.caches ∨
      (readRef L.heap L.rendered.strokes).length
        < (readRef (renderLoop ns Caching.on L).heap e.strokes).length := by
  intro ns
  induction ns with
  | nil => intro L _ e he; exact Or.inl he
  | cons s rest ih =>
    intro L hwf e he
    rw [renderLoop] at he ⊢
    rcases ih _ (populate_cache_wf _ (renderStep_wf _ _ hwf)) e he with hmem | hlen
    · exact populate_step_caches L s rest hwf e hmem
    · right
      have hb := populate_step_base L s hwf
      rw [hb, List.length_append, List.length_singleton] at hlen
      omega

theorem renderLoop_wait : ∀ (pre post : List Nat) (m : Nat) (L : Layer),
    WF L → m ∉ pre →
    ∀ e ∈ (renderLoop (pre ++ m :: post) (Caching.waiting m) L).caches,
      e ∈ L.caches ∨
      (readRef L.heap L.rendered.strokes).length + pre.length
        < (readRef (renderLoop (pre ++ m :: post) (Caching.waiting m) L).heap
            e.strokes).length := by
  intro pre
  induction pre with
  | nil =>
    intro post m L hwf _ e he
    rw [List.nil_append, renderLoop, if_pos rfl] at he ⊢
    rcases renderLoop_on post _ (populate_cache_wf _ (renderStep_wf _ _ hwf)) e he
      with hmem | hlen
    · rcases populate_step_caches L m post hwf e hmem with h1 | h1
      · exact Or.inl h1
      · right
        rw [List.length_nil, Nat.add_zero]
        exact h1
    · right
      rw [List.length_nil, Nat.add_zero]
      have hb := populate_step_base L m hwf
      rw [hb, List.length_append, List.length_singleton] at hlen
      omega
  | cons a pre2 ih =>
    intro post m L hwf hm e he
    rw [List.mem_cons] at hm
    push_neg at hm
    obtain ⟨ham, hm2⟩ := hm
    rw [List.cons_append, renderLoop, if_neg ham] at he ⊢
    rcases ih post m (renderStep L a) (renderStep_wf _ _ hwf) hm2 e he
      with hmem | hlen
    · rw [renderStep_caches] at hmem
      exact Or.inl hmem
    · right
      rw [renderStep_rendered, renderStep_read_self _ _ hwf.1, List.length_append,
        List.length_singleton] at hlen
      rw [List.length_cons]
      omega

/-- Claim C6 counterexample: for the layer L19 (threshold 6, 6 of 19 strokes
rendered, a 13-stroke replay), the replay creates a cache entry capturing
only the first 8 strokes — 11 strokes before the end of the replay, which is
more than one threshold-window (6): the source resumes population at
`new_strokes[-2*strokes_to_cache]`, i.e. two threshold-windows (12 strokes)
before the end, not one. -/
theorem C6_counterexample :
    render_new_strokes L19 = some L19' ∧
    L19.strokes_to_cache = 6 ∧
    L19.strokes.length = 19 ∧
    L19'.caches[0]?
      = some { strokes := 1, background := none,
               snapshot := { background := none,
                             strokes := [1, 2, 3, 4, 5, 6, 7, 8] } } ∧
    (readRef L19'.heap 1).length = 8 := by
  exact ⟨by decide, rfl, rfl, rfl, rfl⟩

/-- Claim C6 (amended): during a suffix replay longer than twice the
cache-population threshold (with the default threshold 6: more than 12
strokes), cache population is suspended and resumes only within two
threshold-windows (12 strokes) of the end of the replay: every cache entry
present afterwards either already existed or captures a rendered prefix
longer than `len(strokes) - 12`.  (The stroke identities are assumed
pairwise distinct, which Python object identity guarantees.) -/
theorem strokes_from_to_some {aS : List Nat} {aBg : Option Nat} {bS : List Nat}
    {bBg : Option Nat} {ns : List Nat}
    (h : strokes_from_to aS aBg bS bBg = some ns) :
    ns = bS.drop aS.length := by
  unfold strokes_from_to at h
  by_cases h1 : aBg ≠ bBg
  · rw [if_pos h1] at h
    cases h
  · rw [if_neg h1] at h
    by_cases h2 : aS = bS.take aS.length
    · rw [if_pos h2] at h
      exact (Option.some_inj.mp h).symm
    · rw [if_neg h2] at h
      cases h

theorem C6_amended (L L' : Layer) (hwf : WF L) (hnd : L.strokes.Nodup)
    (hw : L.strokes_to_cache = 6)
    (hbig : (readRef L.heap L.rendered.strokes).length + 12 < L.strokes.length)
    (h : render_new_strokes L = some L') :
    ∀ e ∈ L'.caches,
      e ∈ L.caches ∨ L.strokes.length - 12 < (readRef L'.heap e.strokes).length := by
  unfold render_new_strokes at h
  split at h
  · cases h
  · rename_i ns hsft
    obtain ⟨hL', -⟩ := finish_check_some _ _ h
    subst hL'
    have hns : ns = L.strokes.drop (readRef L.heap L.rendered.strokes).length :=
      strokes_from_to_some hsft
    have hnodup : ns.Nodup := by
      rw [hns]
      exact List.Nodup.sublist (List.drop_sublist _ _) hnd
    have hnslen : ns.length
        = L.strokes.length - (readRef L.heap L.rendered.strokes).length := by
      rw [hns, List.length_drop]
    have hgt : 12 < ns.length := by omega
    have hk : ns.length - 12 < ns.length := by omega
    have hdec : ns.take (ns.length - 12)
        ++ ns.getD (ns.length - 12) 0 :: ns.drop (ns.length - 12 + 1) = ns := by
      rw [List.getD_eq_getElem?_getD, List.getElem?_eq_getElem hk,
        Option.getD_some, ← List.drop_eq_getElem_cons hk]
      exact List.take_append_drop _ _
    have hnm : ns.getD (ns.length - 12) 0 ∉ ns.take (ns.length - 12) := by
      rw [List.getD_eq_getElem?_getD, List.getElem?_eq_getElem hk,
        Option.getD_some]
      intro hmem
      obtain ⟨j, hj, hje⟩ := List.getElem_of_mem hmem
      have hjk : j < ns.length - 12 := by
        rw [List.length_take] at hj
        exact Nat.lt_of_lt_of_le hj (min_le_left _ _)
      rw [List.getElem_take] at hje
      have := (List.Nodup.getElem_inj_iff hnodup).mp hje
      omega
    have hca : initial_caching L.strokes_to_cache ns
        = Caching.waiting (ns.getD (ns.length - 12) 0) := by
      rw [hw]
      unfold initial_caching
      rw [if_pos (by omega), if_neg (by norm_num)]
    have happ := renderLoop_wait (ns.take (ns.length - 12))
      (ns.drop (ns.length - 12 + 1)) (ns.getD (ns.length - 12) 0) L hwf hnm
    rw [hdec] at happ
    rw [hca]
    intro e he
    rcases happ e he with hmem | hlt
    · exact Or.inl hmem
    · right
      rw [List.length_take] at hlt
      have hmin : min (ns.length - 12) ns.length = ns.length - 12 :=
        min_eq_left (Nat.le_of_lt hk)
      rw [hmin] at hlt
      omega

/-- Witness for C6_amended at the concrete layer L19, whose replay completes
with result L19', instantiated at the first cache entry created by the
replay (heap cell 1, holding 8 strokes, with 19 - 12 = 7 < 8). -/
theorem C6_amended_witness :
    ({ strokes := 1, background := none,
       snapshot := { background := none,
                     strokes := [1, 2, 3, 4, 5, 6, 7, 8] } } : Cache) ∈ L19.caches ∨
    L19.strokes.length - 12 < (readRef L19'.heap 1).length :=
  C6_amended L19 L19' (by decide) (by decide) rfl (by decide) (by decide)
    { strokes := 1, background := none,
      snapshot := { background := none, strokes := [1, 2, 3, 4, 5, 6, 7, 8] } }
    (by decide)
